import Mathlib

/-
Verification development for the cmap hash table (src/map.c).

The table is a chained hash map: a growable bucket array of singly linked
collision chains, string keys, opaque fixed-size values.  We embed the C
code shallowly:

* A C string is a `List Nat` of its bytes (terminator excluded; C string
  bytes are nonzero, so `strcmp == 0` is list equality).
* A collision chain is a `List MapNode`; the `next` pointer of a node is
  the list structure (each link is exclusively owned by its predecessor,
  matching the code's ownership discipline).
* `size_t` arithmetic at native width `w` bits is `Nat` arithmetic with
  explicit `% 2 ^ w`.
* `malloc`/`realloc` outcomes are passed to `map_set_` as explicit
  booleans (`allocNode`, `allocBuckets`); failure yields `none`.
  The in-place state the C code leaves behind when `realloc` fails inside
  `map_resize` is not expressible in the owned-list view, so that failure
  path is additionally modelled pointer-level further below (`PNode`).
-/

set_option autoImplicit false

/-- A collision-chain entry (`map_node_t`): the cached digest of the key,
the owned key bytes and the owned value bytes.  The `next` field of the C
struct is represented by the chain's list structure. -/
structure MapNode where
  hash : Nat
  key : List Nat
  value : List Nat
deriving DecidableEq

/-- The table (`map_base_t`): the bucket array (`buckets`, whose length is
the C field `nbuckets`) and the live-entry count (`nnodes`). -/
structure map_base_t where
  buckets : List (List MapNode)
  nnodes : Nat
deriving DecidableEq

/-- A fresh table: zero buckets, zero entries (`map_init_`). -/
def map_create : map_base_t := ⟨[], 0⟩

/-- `map_hash` from map.c: djb2-style fold over the key bytes, starting at
5381, update `hash = ((hash * 33) + hash) ^ byte`, at native unsigned width
`w` bits with wraparound. -/
def map_hash (w : Nat) (key : List Nat) : Nat :=
  key.foldl (fun h c => ((h * 33 + h) % 2 ^ w) ^^^ (c % 2 ^ w)) (5381 % 2 ^ w)

/-- `map_bucketidx` from map.c: `hash & (nbuckets - 1)`; `nbuckets` is kept
a power of two so this reduces the digest to a bucket index. -/
def map_bucketidx (nbuckets hash : Nat) : Nat := hash &&& (nbuckets - 1)

/-- The chain walk of `map_getref`: first node whose cached digest equals
`hash` and whose key bytes equal `key` (digest check plus `strcmp`). -/
def chain_get (hash : Nat) (key : List Nat) : List MapNode → Option MapNode
  | [] => none
  | nd :: rest =>
      if nd.hash = hash ∧ nd.key = key then some nd else chain_get hash key rest

/-- The overwrite performed by `map_set_` on a found node: replace the value
bytes of the first matching node in place. -/
def chain_overwrite (hash : Nat) (key value : List Nat) :
    List MapNode → List MapNode
  | [] => []
  | nd :: rest =>
      if nd.hash = hash ∧ nd.key = key then { nd with value := value } :: rest
      else nd :: chain_overwrite hash key value rest

/-- The unlink performed by `map_remove_`: drop the first matching node,
relinking its predecessor (or the bucket head) to its successor. -/
def chain_remove (hash : Nat) (key : List Nat) : List MapNode → List MapNode
  | [] => []
  | nd :: rest =>
      if nd.hash = hash ∧ nd.key = key then rest
      else nd :: chain_remove hash key rest

/-- `map_getref` from map.c: hash the key and, when the table has buckets,
walk the chain at the key's bucket index. -/
def map_getref (w : Nat) (m : map_base_t) (key : List Nat) : Option MapNode :=
  if 0 < m.buckets.length then
    chain_get (map_hash w key) key
      (m.buckets.getD (map_bucketidx m.buckets.length (map_hash w key)) [])
  else none

/-- `map_get_` from map.c: the found node's value, if any. -/
def map_get_ (w : Nat) (m : map_base_t) (key : List Nat) : Option (List Nat) :=
  (map_getref w m key).map MapNode.value

/-- `map_newnode` from map.c (success case): a node owning copies of the key
and value bytes, with the digest computed once and cached. -/
def map_newnode (w : Nat) (key value : List Nat) : MapNode :=
  { hash := map_hash w key, key := key, value := value }

/-- `map_addnode` from map.c: prepend the node to the chain of its bucket
(chosen from the node's cached digest). -/
def map_addnode (buckets : List (List MapNode)) (nd : MapNode) :
    List (List MapNode) :=
  let n := map_bucketidx buckets.length nd.hash
  buckets.set n (nd :: buckets.getD n [])

/-- The drain phase of `map_resize`: walk the buckets from the highest index
down, popping each chain node onto one transient list. -/
def map_drain (buckets : List (List MapNode)) : List MapNode :=
  buckets.foldr (fun chain nodes => chain.foldl (fun ns nd => nd :: ns) nodes) []

/-- `map_resize` from map.c, success path: drain all nodes, allocate a fresh
bucket array of `nbuckets` empty slots, and re-add every drained node by its
cached digest. -/
def map_resize (buckets : List (List MapNode)) (nbuckets : Nat) :
    List (List MapNode) :=
  (map_drain buckets).foldl map_addnode (List.replicate nbuckets ([] : List MapNode))

/-- `map_set_` from map.c.  `allocNode` is the outcome of the `malloc` in
`map_newnode`, `allocBuckets` the outcome of the `realloc` in `map_resize`;
`none` is the error return 0 (OutOfMemory).  Branch order follows the C:
find-and-replace first, then allocate the node, then grow if
`nnodes >= nbuckets`, then link. -/
def map_set_ (w : Nat) (allocNode allocBuckets : Bool) (m : map_base_t)
    (key value : List Nat) : Option map_base_t :=
  match map_getref w m key with
  | some _ =>
      let idx := map_bucketidx m.buckets.length (map_hash w key)
      some { m with
             buckets := m.buckets.set idx
               (chain_overwrite (map_hash w key) key value (m.buckets.getD idx [])) }
  | none =>
      if allocNode then
        let nd := map_newnode w key value
        if m.buckets.length ≤ m.nnodes then
          let n := if 0 < m.buckets.length then m.buckets.length * 2 else 1
          if allocBuckets then
            some { buckets := map_addnode (map_resize m.buckets n) nd,
                   nnodes := m.nnodes + 1 }
          else none
        else
          some { buckets := map_addnode m.buckets nd, nnodes := m.nnodes + 1 }
      else none

/-- `map_remove_` from map.c: find the node, unlink it and decrement the
entry count; a missing key is a silent no-op. -/
def map_remove_ (w : Nat) (m : map_base_t) (key : List Nat) : map_base_t :=
  match map_getref w m key with
  | some _ =>
      let idx := map_bucketidx m.buckets.length (map_hash w key)
      { buckets := m.buckets.set idx
          (chain_remove (map_hash w key) key (m.buckets.getD idx [])),
        nnodes := m.nnodes - 1 }
  | none => m

/-- The iterator (`map_iter_t`): current bucket index (starts at the
sentinel -1) and the current chain position.  The C `node` pointer is the
suffix of the chain headed by the current node; `[]` is NULL. -/
structure map_iter_t where
  bucketidx : Int
  node : List MapNode
deriving DecidableEq

/-- `map_iter_` from map.c: fresh iterator, one below the first bucket. -/
def map_iter_ : map_iter_t := ⟨-1, []⟩

/-- The `nextBucket` do-while of `map_next_`: starting at index `j`, skip
empty buckets; return the index, head node and chain tail of the first
non-empty bucket, or `none` when every remaining index is exhausted. -/
def map_nextbucket (buckets : List (List MapNode)) (j : Nat) :
    Option (Nat × MapNode × List MapNode) :=
  if h : j < buckets.length then
    match buckets.get ⟨j, h⟩ with
    | [] => map_nextbucket buckets (j + 1)
    | nd :: rest => some (j, nd, rest)
  else none
termination_by buckets.length - j

/-- `map_next_` from map.c: advance within the current chain if possible,
otherwise scan for the next non-empty bucket; yield the new current node, or
`none` once all buckets are exhausted (after which the iterator keeps
yielding `none`). -/
def map_next_ (m : map_base_t) (iter : map_iter_t) :
    map_iter_t × Option MapNode :=
  match iter.node with
  | _ :: nd2 :: rest => (⟨iter.bucketidx, nd2 :: rest⟩, some nd2)
  | _ =>
      match map_nextbucket m.buckets (iter.bucketidx + 1).toNat with
      | some (j, nd, rest) => (⟨(j : Int), nd :: rest⟩, some nd)
      | none => (⟨max (iter.bucketidx + 1) (m.buckets.length : Int), []⟩, none)

/-- Repeatedly advance the iterator, collecting the yielded keys; `fuel`
bounds the number of steps (a full iteration uses more fuel than there are
entries, so the terminal `none` is reached). -/
def map_collect (m : map_base_t) : map_iter_t → Nat → List (List Nat)
  | _, 0 => []
  | iter, fuel + 1 =>
      match map_next_ m iter with
      | (_, none) => []
      | (iter', some nd) => nd.key :: map_collect m iter' fuel

/-- A full iteration: fresh iterator, advanced until it yields `none`. -/
def map_iterate_all (m : map_base_t) : List (List Nat) :=
  map_collect m map_iter_ (m.buckets.flatten.length + 1)

/-- The keys of all live entries, in bucket order then chain order. -/
def tableKeys (m : map_base_t) : List (List Nat) :=
  m.buckets.flatten.map MapNode.key

/-- Every node sits in the bucket its cached digest selects. -/
def bucketsOk (bs : List (List MapNode)) : Prop :=
  ∀ i, (hi : i < bs.length) → ∀ nd ∈ bs.get ⟨i, hi⟩,
    map_bucketidx bs.length nd.hash = i

/-- Well-formedness of a reachable table: the entry count matches the
number of chained nodes, keys are pairwise distinct, every cached digest is
the hash of its key, and every node sits in the bucket its digest selects. -/
def map_wf (w : Nat) (m : map_base_t) : Prop :=
  m.nnodes = m.buckets.flatten.length ∧
  (tableKeys m).Nodup ∧
  (∀ nd ∈ m.buckets.flatten, nd.hash = map_hash w nd.key) ∧
  bucketsOk m.buckets

/-- `nbuckets` is zero (the fresh table) or a power of two. -/
def pow2OrZero (n : Nat) : Prop := n = 0 ∨ ∃ k, n = 2 ^ k

/-- `map_set_` with both allocations succeeding (it then always returns a
table, see `map_set_total`). -/
def map_setTotal (w : Nat) (m : map_base_t) (key value : List Nat) :
    map_base_t :=
  (map_set_ w true true m key value).getD m

/-- Insert a list of key/value pairs in order, all allocations succeeding. -/
def insertAll (w : Nat) (m : map_base_t)
    (kvs : List (List Nat × List Nat)) : map_base_t :=
  kvs.foldl (fun acc kv => map_setTotal w acc kv.1 kv.2) m

/-
Pointer-level model of the failure path of `map_resize`.  When the
`realloc` fails, the C code has already executed the drain loop, which
rewrote every node's `next` pointer to thread all nodes onto one transient
list, while `m->buckets` still holds the old heads.  Nodes live in a heap
addressed by `Nat` ids; `next` is an id or `none` for NULL.
-/

/-- Pointer-level node: just the `next` link (the payload is irrelevant to
the link corruption exhibited below). -/
structure PNode where
  next : Option Nat
deriving DecidableEq

/-- The inner drain loop of `map_resize` on one bucket: `cur` walks the
chain; each step rewrites `cur`'s `next` to the transient list head `nodes`
and pushes `cur` onto that list.  `fuel` bounds the walk. -/
def drain_loop : List PNode → Option Nat → Option Nat → Nat →
    List PNode × Option Nat
  | heap, nodes, _, 0 => (heap, nodes)
  | heap, nodes, none, _ + 1 => (heap, nodes)
  | heap, nodes, some p, fuel + 1 =>
      drain_loop (heap.set p ⟨nodes⟩) (some p) ((heap.getD p ⟨none⟩).next) fuel

/-- The full drain phase of `map_resize` (the state of heap and transient
list at the moment the `realloc` is attempted): buckets are drained from the
highest index down. -/
def map_resize_drain (heap : List PNode) (buckets : List (Option Nat))
    (fuel : Nat) : List PNode × Option Nat :=
  buckets.foldr (fun head acc => drain_loop acc.1 acc.2 head fuel) (heap, none)

/-- The node ids reachable by following `next` links from a chain head. -/
def chain_ids (heap : List PNode) : Option Nat → Nat → List Nat
  | none, _ => []
  | some _, 0 => []
  | some p, fuel + 1 => p :: chain_ids heap (heap.getD p ⟨none⟩).next fuel

/-- Failing input for claim C1: two buckets, chain A(id 0) → B(id 1) in
bucket 0 and C(id 2) in bucket 1. -/
def failHeap0 : List PNode := [⟨some 1⟩, ⟨none⟩, ⟨none⟩]

/-- The bucket heads of the failing input. -/
def failBuckets0 : List (Option Nat) := [some 0, some 2]

/-- The heap after the drain phase, i.e. the heap the table is left with
when the `realloc` fails (the bucket array itself is untouched on a failed
`realloc`, and `map_set_` then frees only the new node and returns 0). -/
def failHeap1 : List PNode := (map_resize_drain failHeap0 failBuckets0 8).1

/-- Size invariant maintained by inserts from an empty table. -/
def sizeInv (m : map_base_t) : Prop :=
  pow2OrZero m.buckets.length ∧ m.nnodes ≤ m.buckets.length ∧
    (m.buckets.length = 0 ∨ m.buckets.length < 2 * m.nnodes)

/-- The nodes a partially advanced iterator has yet to yield: the rest of
the current chain, then all chains of the buckets after the current one. -/
def iterRemaining (m : map_base_t) (iter : map_iter_t) : List MapNode :=
  iter.node.tail ++ ((m.buckets.drop ((iter.bucketidx + 1).toNat)).flatten)

/-
Spec-side hash definitions, for the refinement claim about `map_hash`.
-/

/-- The spec's multiplicative update, word for word: start at 5381, update
`accumulator = (accumulator * 33 + accumulator) XOR b` at width `w`. -/
def spec_hash_mul (w : Nat) (key : List Nat) : Nat :=
  key.foldl (fun h c => ((h * 33 + h) % 2 ^ w) ^^^ (c % 2 ^ w)) 5381

/-- The spec's claimed shift form, word for word: start at 5381, update
`accumulator = (accumulator << 5) + accumulator XOR b` at width `w`. -/
def spec_hash_shift (w : Nat) (key : List Nat) : Nat :=
  key.foldl (fun h c => (((h <<< 5) + h) % 2 ^ w) ^^^ (c % 2 ^ w)) 5381

/-- The shift form that actually matches the code's update:
`accumulator = (accumulator << 5) + 2 * accumulator XOR b`. -/
def hash_shift_double (w : Nat) (key : List Nat) : Nat :=
  key.foldl (fun h c => (((h <<< 5) + 2 * h) % 2 ^ w) ^^^ (c % 2 ^ w)) 5381

/-
Entry layout: the byte offset of the value storage inside `map_newnode`'s
single allocation.  The code computes `node->value = ((char *)(node + 1)) +
ksize` in an allocation of `sizeof(*node) + ksize + vsize` bytes, so the
value begins exactly `nodeSize + ksize` bytes into the block, with no
padding after the key's terminator.
-/

/-- The value's byte offset from the start of the allocation: `nodeSize`
stands for `sizeof(map_node_t)` and `ksize` for `strlen(key) + 1`. -/
def map_value_offset (nodeSize ksize : Nat) : Nat := nodeSize + ksize

/-- The bucket count of a table (`m->nbuckets`), as a projection usable in
`Option.map`. -/
def bucketsLen (m : map_base_t) : Nat := m.buckets.length

instance (bs : List (List MapNode)) : Decidable (bucketsOk bs) := by
  unfold bucketsOk; exact Nat.decidableBallLT _ _

instance (w : Nat) (m : map_base_t) : Decidable (map_wf w m) := by
  unfold map_wf; infer_instance

/-
Toolbox: small list facts used throughout.
-/

theorem getD_set_self {α : Type} (l : List α) (i : Nat) (x d : α)
    (h : i < l.length) : (l.set i x).getD i d = x := by
  rw [List.getD_eq_getElem?_getD, List.getElem?_set_self h]
  rfl

theorem getD_set_ne {α : Type} (l : List α) (i j : Nat) (x d : α)
    (h : i ≠ j) : (l.set i x).getD j d = l.getD j d := by
  rw [List.getD_eq_getElem?_getD, List.getElem?_set_ne h,
    ← List.getD_eq_getElem?_getD]

theorem getD_mem {α : Type} (l : List α) (i : Nat) (d : α)
    (h : i < l.length) : l.getD i d ∈ l := by
  rw [List.getD_eq_getElem _ _ h]
  exact List.getElem_mem h

theorem bucketidx_lt (n h : Nat) (hn : 0 < n) : map_bucketidx n h < n := by
  have := Nat.and_le_right (n := h) (m := n - 1)
  unfold map_bucketidx
  omega

theorem flatten_set_cons_perm {α : Type} :
    ∀ (l : List (List α)) (i : Nat) (x : α), i < l.length →
      ((l.set i (x :: l.getD i [])).flatten).Perm (x :: l.flatten)
  | [], i, x, h => by simp at h
  | c :: rest, 0, x, _ => by simp
  | c :: rest, i + 1, x, h => by
      have ih := flatten_set_cons_perm rest i x (by simpa using h)
      simp only [List.set_cons_succ, List.getD_cons_succ, List.flatten_cons]
      exact (ih.append_left c).trans List.perm_middle

/-
Chain-walk facts.
-/

theorem chain_get_some (h : Nat) (k : List Nat) :
    ∀ (c : List MapNode) (nd : MapNode), chain_get h k c = some nd →
      nd ∈ c ∧ nd.hash = h ∧ nd.key = k
  | [], nd, hg => by simp [chain_get] at hg
  | x :: rest, nd, hg => by
      by_cases hx : x.hash = h ∧ x.key = k
      · rw [chain_get, if_pos hx] at hg
        obtain rfl : x = nd := by simpa using hg
        exact ⟨List.mem_cons_self _ _, hx⟩
      · rw [chain_get, if_neg hx] at hg
        have := chain_get_some h k rest nd hg
        exact ⟨List.mem_cons_of_mem _ this.1, this.2⟩

theorem chain_get_eq_none (h : Nat) (k : List Nat) :
    ∀ c : List MapNode,
      chain_get h k c = none ↔ ∀ nd ∈ c, ¬(nd.hash = h ∧ nd.key = k)
  | [] => by simp [chain_get]
  | x :: rest => by
      by_cases hx : x.hash = h ∧ x.key = k
      · rw [chain_get, if_pos hx]
        simp only [List.mem_cons]
        constructor
        · intro hc; cases hc
        · intro hall; exact absurd hx (hall x (Or.inl rfl))
      · rw [chain_get, if_neg hx, chain_get_eq_none h k rest]
        simp only [List.mem_cons]
        constructor
        · rintro hall nd (rfl | hmem)
          · exact hx
          · exact hall nd hmem
        · intro hall nd hmem; exact hall nd (Or.inr hmem)

theorem chain_get_overwrite (h : Nat) (k v : List Nat) :
    ∀ (c : List MapNode) (nd : MapNode), chain_get h k c = some nd →
      chain_get h k (chain_overwrite h k v c) = some { nd with value := v }
  | [], nd, hg => by simp [chain_get] at hg
  | x :: rest, nd, hg => by
      by_cases hx : x.hash = h ∧ x.key = k
      · rw [chain_get, if_pos hx] at hg
        obtain rfl : x = nd := by simpa using hg
        rw [chain_overwrite, if_pos hx, chain_get, if_pos]
        exact hx
      · rw [chain_get, if_neg hx] at hg
        rw [chain_overwrite, if_neg hx, chain_get, if_neg hx]
        exact chain_get_overwrite h k v rest nd hg

theorem chain_get_remove_self (h : Nat) (k : List Nat) :
    ∀ c : List MapNode, (c.map MapNode.key).Nodup →
      chain_get h k (chain_remove h k c) = none
  | [], _ => by simp [chain_remove, chain_get]
  | x :: rest, hnd => by
      have hnd' : (rest.map MapNode.key).Nodup := (List.nodup_cons.mp hnd).2
      by_cases hx : x.hash = h ∧ x.key = k
      · rw [chain_remove, if_pos hx, chain_get_eq_none]
        intro nd hmem ⟨_, hndk⟩
        have : x.key ∈ rest.map MapNode.key := by
          rw [hx.2, ← hndk]
          exact List.mem_map_of_mem _ hmem
        exact (List.nodup_cons.mp hnd).1 this
      · rw [chain_remove, if_neg hx, chain_get, if_neg hx]
        exact chain_get_remove_self h k rest hnd'

theorem chain_get_remove_ne (h h' : Nat) (k k' : List Nat) (hkk : k' ≠ k) :
    ∀ c : List MapNode,
      chain_get h' k' (chain_remove h k c) = chain_get h' k' c
  | [] => by simp [chain_remove]
  | x :: rest => by
      by_cases hx : x.hash = h ∧ x.key = k
      · rw [chain_remove, if_pos hx]
        conv_rhs => rw [chain_get]
        rw [if_neg]
        rintro ⟨_, hxk⟩
        exact hkk (hxk.symm.trans hx.2)
      · rw [chain_remove, if_neg hx, chain_get, chain_get]
        by_cases hx' : x.hash = h' ∧ x.key = k'
        · rw [if_pos hx', if_pos hx']
        · rw [if_neg hx', if_neg hx']
          exact chain_get_remove_ne h h' k k' hkk rest

theorem chain_remove_length (h : Nat) (k : List Nat) :
    ∀ (c : List MapNode) (nd : MapNode), chain_get h k c = some nd →
      (chain_remove h k c).length + 1 = c.length
  | [], nd, hg => by simp [chain_get] at hg
  | x :: rest, nd, hg => by
      by_cases hx : x.hash = h ∧ x.key = k
      · rw [chain_remove, if_pos hx]
        simp
      · rw [chain_get, if_neg hx] at hg
        rw [chain_remove, if_neg hx]
        simpa using chain_remove_length h k rest nd hg

/-
Lookup facts.
-/

theorem getref_some (w : Nat) (m : map_base_t) (k : List Nat) (nd : MapNode)
    (hg : map_getref w m k = some nd) :
    nd ∈ m.buckets.flatten ∧ nd.key = k ∧ nd.hash = map_hash w k ∧
      0 < m.buckets.length := by
  unfold map_getref at hg
  split at hg
  case isFalse => cases hg
  case isTrue hl =>
    have hidx := bucketidx_lt m.buckets.length (map_hash w k) hl
    have hc := chain_get_some _ _ _ _ hg
    refine ⟨List.mem_flatten.mpr ⟨_, getD_mem _ _ _ hidx, hc.1⟩, hc.2.2, hc.2.1, hl⟩

theorem getref_of_not_mem (w : Nat) (m : map_base_t) (k : List Nat)
    (h : k ∉ tableKeys m) : map_getref w m k = none := by
  cases hg : map_getref w m k with
  | none => rfl
  | some nd =>
    have := getref_some w m k nd hg
    exact absurd (this.2.1 ▸ List.mem_map_of_mem MapNode.key this.1) h

theorem getref_complete (w : Nat) (m : map_base_t) (k : List Nat)
    (hhash : ∀ nd ∈ m.buckets.flatten, nd.hash = map_hash w nd.key)
    (hbkt : bucketsOk m.buckets) (nd : MapNode) (hmem : nd ∈ m.buckets.flatten)
    (hk : nd.key = k) : map_getref w m k ≠ none := by
  obtain ⟨c, hc, hndc⟩ := List.mem_flatten.mp hmem
  obtain ⟨i, hci⟩ := List.mem_iff_get.mp hc
  have hlen : 0 < m.buckets.length := i.pos
  have hhashnd : nd.hash = map_hash w k := hk ▸ hhash nd hmem
  have hndi : nd ∈ m.buckets.get ⟨i.val, i.isLt⟩ := by
    rw [show (⟨i.val, i.isLt⟩ : Fin m.buckets.length) = i from rfl, hci]
    exact hndc
  have hidx : map_bucketidx m.buckets.length (map_hash w k) = i.val := by
    rw [← hhashnd]
    exact hbkt i.val i.isLt nd hndi
  unfold map_getref
  rw [if_pos hlen, hidx]
  intro hnone
  have hgd : m.buckets.getD i.val [] = c := by
    rw [List.getD_eq_getElem _ _ i.isLt, ← List.get_eq_getElem]
    exact hci
  rw [hgd] at hnone
  exact (chain_get_eq_none _ _ c).mp hnone nd hndc ⟨hhashnd, hk⟩

theorem nodup_key_unique (m : map_base_t) (hnd : (tableKeys m).Nodup)
    (nd nd' : MapNode) (h1 : nd ∈ m.buckets.flatten)
    (h2 : nd' ∈ m.buckets.flatten) (hk : nd.key = nd'.key) : nd = nd' :=
  List.inj_on_of_nodup_map hnd h1 h2 hk

theorem get_eq_some_iff (w : Nat) (m : map_base_t) (k v : List Nat)
    (hhash : ∀ nd ∈ m.buckets.flatten, nd.hash = map_hash w nd.key)
    (hbkt : bucketsOk m.buckets) (hnd : (tableKeys m).Nodup) :
    map_get_ w m k = some v ↔
      ∃ nd ∈ m.buckets.flatten, nd.key = k ∧ nd.value = v := by
  constructor
  · intro hg
    unfold map_get_ at hg
    cases hgr : map_getref w m k with
    | none => rw [hgr] at hg; cases hg
    | some nd =>
      rw [hgr] at hg
      have := getref_some w m k nd hgr
      exact ⟨nd, this.1, this.2.1, by simpa using hg⟩
  · rintro ⟨nd, hmem, hk, hv⟩
    cases hgr : map_getref w m k with
    | none => exact absurd hgr (getref_complete w m k hhash hbkt nd hmem hk)
    | some nd' =>
      have h' := getref_some w m k nd' hgr
      have heq : nd = nd' := nodup_key_unique m hnd nd nd' hmem h'.1 (hk.trans h'.2.1.symm)
      unfold map_get_
      rw [hgr]
      simp only [Option.map_some']
      rw [← heq, hv]

/-
Insert facts.
-/

theorem addnode_length (bs : List (List MapNode)) (nd : MapNode) :
    (map_addnode bs nd).length = bs.length := by
  unfold map_addnode
  exact List.length_set bs _ _

theorem foldl_addnode_length :
    ∀ (l : List MapNode) (bs : List (List MapNode)),
      (l.foldl map_addnode bs).length = bs.length
  | [], bs => rfl
  | nd :: l, bs => by
      rw [List.foldl_cons, foldl_addnode_length l _, addnode_length]

theorem resize_length (bs : List (List MapNode)) (n : Nat) :
    (map_resize bs n).length = n := by
  unfold map_resize
  rw [foldl_addnode_length, List.length_replicate]

theorem map_set_of_found (w : Nat) (a b : Bool) (m : map_base_t)
    (k v : List Nat) (nd0 : MapNode) (hg : map_getref w m k = some nd0) :
    map_set_ w a b m k v = some { m with buckets := (m.buckets.set
      (map_bucketidx m.buckets.length (map_hash w k))
      (chain_overwrite (map_hash w k) k v
        (m.buckets.getD (map_bucketidx m.buckets.length (map_hash w k)) []))) } := by
  unfold map_set_
  rw [hg]

theorem map_set_of_none (w : Nat) (a b : Bool) (m : map_base_t)
    (k v : List Nat) (hg : map_getref w m k = none) :
    map_set_ w a b m k v =
      if a then
        if m.buckets.length ≤ m.nnodes then
          if b then
            some ⟨map_addnode
              (map_resize m.buckets
                (if 0 < m.buckets.length then m.buckets.length * 2 else 1))
              (map_newnode w k v), m.nnodes + 1⟩
          else none
        else some ⟨map_addnode m.buckets (map_newnode w k v), m.nnodes + 1⟩
      else none := by
  unfold map_set_
  rw [hg]

theorem set_some_cases (w : Nat) (a b : Bool) (m m' : map_base_t)
    (k v : List Nat) (hg : map_getref w m k = none)
    (h : map_set_ w a b m k v = some m') :
    ∃ bs, 0 < bs.length ∧
      m' = ⟨map_addnode bs (map_newnode w k v), m.nnodes + 1⟩ ∧
      ((bs = map_resize m.buckets
          (if 0 < m.buckets.length then m.buckets.length * 2 else 1) ∧
        m.buckets.length ≤ m.nnodes) ∨
       (bs = m.buckets ∧ m.nnodes < m.buckets.length)) := by
  rw [map_set_of_none w a b m k v hg] at h
  split at h
  case isFalse => cases h
  case isTrue =>
    split at h
    case isTrue hle =>
      split at h
      case isFalse => cases h
      case isTrue =>
        refine ⟨_, ?_, (Option.some.inj h).symm, Or.inl ⟨rfl, hle⟩⟩
        rw [resize_length]
        split
        case isTrue hpos => omega
        case isFalse => omega
    case isFalse hlt =>
      exact ⟨m.buckets, by omega, (Option.some.inj h).symm, Or.inr ⟨rfl, by omega⟩⟩

theorem getref_addnode_self (w : Nat) (bs : List (List MapNode)) (nd : MapNode)
    (x : Nat) (hl : 0 < bs.length) (hh : nd.hash = map_hash w nd.key) :
    map_getref w ⟨map_addnode bs nd, x⟩ nd.key = some nd := by
  have hlen : (map_addnode bs nd).length = bs.length := addnode_length bs nd
  have hidx : map_bucketidx bs.length nd.hash < bs.length :=
    bucketidx_lt bs.length nd.hash hl
  unfold map_getref
  simp only
  rw [hlen, if_pos hl, ← hh]
  unfold map_addnode
  simp only
  rw [getD_set_self _ _ _ _ hidx, chain_get, if_pos ⟨rfl, rfl⟩]

theorem getref_after_set (w : Nat) (a b : Bool) (m m' : map_base_t)
    (k v : List Nat) (h : map_set_ w a b m k v = some m') :
    map_getref w m' k = some (map_newnode w k v) := by
  cases hg : map_getref w m k with
  | some nd0 =>
    rw [map_set_of_found w a b m k v nd0 hg] at h
    obtain rfl := (Option.some.inj h).symm
    have hfacts := getref_some w m k nd0 hg
    have hlen : 0 < m.buckets.length := hfacts.2.2.2
    have hidx : map_bucketidx m.buckets.length (map_hash w k) < m.buckets.length :=
      bucketidx_lt _ _ hlen
    have hcg : chain_get (map_hash w k) k
        (m.buckets.getD (map_bucketidx m.buckets.length (map_hash w k)) []) =
          some nd0 := by
      unfold map_getref at hg
      rw [if_pos hlen] at hg
      exact hg
    unfold map_getref
    simp only [List.length_set]
    rw [if_pos hlen, getD_set_self _ _ _ _ hidx,
      chain_get_overwrite (map_hash w k) k v _ nd0 hcg]
    have h1 : nd0.hash = map_hash w k := hfacts.2.2.1
    have h2 : nd0.key = k := hfacts.2.1
    cases nd0
    unfold map_newnode
    simp only at h1 h2
    rw [h1, h2]
  | none =>
    obtain ⟨bs, hbs, rfl, _⟩ := set_some_cases w a b m m' k v hg h
    have := getref_addnode_self w bs (map_newnode w k v) (m.nnodes + 1) hbs rfl
    exact this

theorem get_after_set (w : Nat) (a b : Bool) (m m' : map_base_t)
    (k v : List Nat) (h : map_set_ w a b m k v = some m') :
    map_get_ w m' k = some v := by
  unfold map_get_
  rw [getref_after_set w a b m m' k v h]
  rfl

/-
Rehash (`map_resize`) facts: the drain + re-add is a permutation of the
chained nodes, and it re-establishes the bucket-placement invariant.
-/

theorem foldl_cons_reverse {α : Type} :
    ∀ (c acc : List α), c.foldl (fun ns nd => nd :: ns) acc = c.reverse ++ acc
  | [], acc => rfl
  | x :: c, acc => by
      rw [List.foldl_cons, foldl_cons_reverse c (x :: acc)]
      simp

theorem drain_perm : ∀ bs : List (List MapNode), (map_drain bs).Perm bs.flatten
  | [] => by simp [map_drain]
  | c :: rest => by
      have ih := drain_perm rest
      unfold map_drain
      rw [List.foldr_cons, foldl_cons_reverse]
      unfold map_drain at ih
      exact ((c.reverse_perm.append ih)).trans (List.Perm.refl _)

theorem addnode_flatten_perm (bs : List (List MapNode)) (nd : MapNode)
    (hl : 0 < bs.length) :
    ((map_addnode bs nd).flatten).Perm (nd :: bs.flatten) := by
  unfold map_addnode
  exact flatten_set_cons_perm bs _ nd (bucketidx_lt _ _ hl)

theorem foldl_addnode_flatten_perm :
    ∀ (l : List MapNode) (bs : List (List MapNode)), 0 < bs.length →
      ((l.foldl map_addnode bs).flatten).Perm (l ++ bs.flatten)
  | [], bs, _ => List.Perm.refl _
  | nd :: l, bs, hl => by
      rw [List.foldl_cons]
      have hl' : 0 < (map_addnode bs nd).length := by
        rw [addnode_length]; exact hl
      have ih := foldl_addnode_flatten_perm l (map_addnode bs nd) hl'
      have hstep := (addnode_flatten_perm bs nd hl).append_left l
      exact (ih.trans hstep).trans List.perm_middle

theorem resize_flatten_perm (bs : List (List MapNode)) (n : Nat) (hn : 0 < n) :
    ((map_resize bs n).flatten).Perm bs.flatten := by
  unfold map_resize
  have hrep : 0 < (List.replicate n ([] : List MapNode)).length := by
    rw [List.length_replicate]; exact hn
  have h1 := foldl_addnode_flatten_perm (map_drain bs) _ hrep
  have h2 : (List.replicate n ([] : List MapNode)).flatten = [] := by
    simp
  rw [h2, List.append_nil] at h1
  exact h1.trans (drain_perm bs)

theorem replicate_bucketsOk (n : Nat) :
    bucketsOk (List.replicate n ([] : List MapNode)) := by
  intro i hi nd hmem
  rw [List.get_eq_getElem, List.getElem_replicate] at hmem
  cases hmem

theorem addnode_bucketsOk (bs : List (List MapNode)) (nd : MapNode)
    (hl : 0 < bs.length) (hok : bucketsOk bs) :
    bucketsOk (map_addnode bs nd) := by
  have hlen : (map_addnode bs nd).length = bs.length := addnode_length bs nd
  intro i hi nd' hmem
  have hi' : i < bs.length := by rw [← hlen]; exact hi
  have hidx : map_bucketidx bs.length nd.hash < bs.length := bucketidx_lt _ _ hl
  rw [hlen]
  unfold map_addnode at hmem
  simp only at hmem
  rw [List.get_eq_getElem, List.getElem_set] at hmem
  by_cases hcase : map_bucketidx bs.length nd.hash = i
  · rw [if_pos hcase] at hmem
    rcases List.mem_cons.mp hmem with rfl | hmem'
    · exact hcase
    · have hmem2 : nd' ∈ bs.getD i [] := by
        rw [← hcase]
        exact hmem'
      rw [List.getD_eq_getElem _ _ hi'] at hmem2
      exact hok i hi' nd' (by rw [List.get_eq_getElem]; exact hmem2)
  · rw [if_neg hcase] at hmem
    exact hok i hi' nd' (by rw [List.get_eq_getElem]; exact hmem)

theorem foldl_addnode_bucketsOk :
    ∀ (l : List MapNode) (bs : List (List MapNode)), 0 < bs.length →
      bucketsOk bs → bucketsOk (l.foldl map_addnode bs)
  | [], bs, _, hok => hok
  | nd :: l, bs, hl, hok => by
      rw [List.foldl_cons]
      have hl' : 0 < (map_addnode bs nd).length := by
        rw [addnode_length]; exact hl
      exact foldl_addnode_bucketsOk l _ hl' (addnode_bucketsOk bs nd hl hok)

theorem resize_bucketsOk (bs : List (List MapNode)) (n : Nat) (hn : 0 < n) :
    bucketsOk (map_resize bs n) := by
  unfold map_resize
  have hrep : 0 < (List.replicate n ([] : List MapNode)).length := by
    rw [List.length_replicate]; exact hn
  exact foldl_addnode_bucketsOk _ _ hrep (replicate_bucketsOk n)

/-
Growth bookkeeping: the bucket count stays a power of two (or zero) and
brackets the entry count.
-/

theorem map_wf_create (w : Nat) : map_wf w map_create := by
  refine ⟨rfl, List.nodup_nil, ?_, ?_⟩
  · intro nd hmem
    simp [map_create] at hmem
  · intro i hi
    simp [map_create] at hi

theorem sizeInv_create : sizeInv map_create :=
  ⟨Or.inl rfl, Nat.le_refl 0, Or.inl rfl⟩

theorem fresh_key_not_mem (w : Nat) (m : map_base_t) (k : List Nat)
    (hwf : map_wf w m) (hg : map_getref w m k = none) : k ∉ tableKeys m := by
  intro hmem
  obtain ⟨nd, hnd, hknd⟩ := List.mem_map.mp hmem
  exact getref_complete w m k hwf.2.2.1 hwf.2.2.2 nd hnd hknd hg

theorem insert_step (w : Nat) (m m' : map_base_t) (k v : List Nat)
    (hwf : map_wf w m) (hsz : sizeInv m) (hg : map_getref w m k = none)
    (h : map_set_ w true true m k v = some m') :
    map_wf w m' ∧ sizeInv m' ∧ m'.nnodes = m.nnodes + 1 ∧
      (tableKeys m').Perm (k :: tableKeys m) := by
  obtain ⟨bs, hbs, rfl, hcases⟩ := set_some_cases w true true m m' k v hg h
  have hkey : k ∉ tableKeys m := fresh_key_not_mem w m k hwf hg
  -- facts about the (possibly re-sized) bucket array bs
  have hfacts : bucketsOk bs ∧ (bs.flatten).Perm m.buckets.flatten := by
    rcases hcases with ⟨rfl, _⟩ | ⟨rfl, _⟩
    · have hn : 0 < (if 0 < m.buckets.length then m.buckets.length * 2 else 1) := by
        split <;> omega
      exact ⟨resize_bucketsOk _ _ hn, resize_flatten_perm _ _ hn⟩
    · exact ⟨hwf.2.2.2, List.Perm.refl _⟩
  obtain ⟨hbok, hperm⟩ := hfacts
  have hflat : ((map_addnode bs (map_newnode w k v)).flatten).Perm
      (map_newnode w k v :: m.buckets.flatten) :=
    (addnode_flatten_perm bs _ hbs).trans (hperm.cons _)
  have hkeysperm : (tableKeys ⟨map_addnode bs (map_newnode w k v),
      m.nnodes + 1⟩).Perm (k :: tableKeys m) := by
    unfold tableKeys
    have := hflat.map MapNode.key
    simpa [map_newnode] using this
  refine ⟨⟨?_, ?_, ?_, ?_⟩, ?_, rfl, hkeysperm⟩
  · -- entry count
    have hlen := hflat.length_eq
    simp only [List.length_cons] at hlen
    simp only
    rw [hlen, ← hwf.1]
  · -- key nodup
    exact hkeysperm.nodup_iff.mpr (List.nodup_cons.mpr ⟨hkey, hwf.2.1⟩)
  · -- cached hashes
    intro nd hmem
    rcases List.mem_cons.mp (hflat.mem_iff.mp hmem) with rfl | hmem'
    · rfl
    · exact hwf.2.2.1 nd hmem'
  · -- bucket placement
    exact addnode_bucketsOk bs _ hbs hbok
  · -- size invariant
    rcases hcases with ⟨rfl, hle⟩ | ⟨rfl, hlt⟩
    · have hnn : m.nnodes = m.buckets.length := Nat.le_antisymm hsz.2.1 hle
      constructor
      · -- power of two
        rcases hsz.1 with hz | ⟨j, hj⟩
        · refine Or.inr ⟨0, ?_⟩
          rw [addnode_length, resize_length, hz]
          simp
        · refine Or.inr ⟨if 0 < m.buckets.length then j + 1 else 0, ?_⟩
          rw [addnode_length, resize_length]
          by_cases hp : 0 < m.buckets.length
          · rw [if_pos hp, if_pos hp, hj, pow_succ, Nat.mul_comm]
          · rw [if_neg hp, if_neg hp, pow_zero]
      · constructor
        · -- nnodes ≤ nbuckets
          rw [addnode_length, resize_length]
          simp only
          by_cases hp : 0 < m.buckets.length
          · rw [if_pos hp]; omega
          · rw [if_neg hp]; omega
        · -- nbuckets < 2 * nnodes
          rw [addnode_length, resize_length]
          simp only
          by_cases hp : 0 < m.buckets.length
          · rw [if_pos hp]; right; omega
          · rw [if_neg hp]; right; omega
    · refine ⟨?_, ?_, ?_⟩
      · rw [addnode_length]; exact hsz.1
      · rw [addnode_length]; simp only; omega
      · rw [addnode_length]
        simp only
        rcases hsz.2.2 with hz | hb
        · omega
        · right; omega

theorem map_set_total (w : Nat) (m : map_base_t) (k v : List Nat) :
    ∃ m', map_set_ w true true m k v = some m' := by
  cases hg : map_getref w m k with
  | some nd0 => exact ⟨_, map_set_of_found w true true m k v nd0 hg⟩
  | none =>
    rw [map_set_of_none w true true m k v hg]
    simp only [if_true]
    by_cases hle : m.buckets.length ≤ m.nnodes
    · rw [if_pos hle]
      exact ⟨_, rfl⟩
    · rw [if_neg hle]
      exact ⟨_, rfl⟩

theorem insertAll_inv (w : Nat) :
    ∀ (kvs : List (List Nat × List Nat)) (m : map_base_t),
      map_wf w m → sizeInv m → (kvs.map Prod.fst).Nodup →
      (∀ kv ∈ kvs, kv.1 ∉ tableKeys m) →
      map_wf w (insertAll w m kvs) ∧ sizeInv (insertAll w m kvs) ∧
        (insertAll w m kvs).nnodes = m.nnodes + kvs.length ∧
        (tableKeys (insertAll w m kvs)).Perm (kvs.map Prod.fst ++ tableKeys m)
  | [], m, hwf, hsz, _, _ => by
      refine ⟨hwf, hsz, rfl, ?_⟩
      simp [insertAll]
  | (k, v) :: kvs, m, hwf, hsz, hnd, hfresh => by
      have hk : k ∉ tableKeys m := hfresh (k, v) (List.mem_cons_self _ _)
      have hg : map_getref w m k = none := getref_of_not_mem w m k hk
      obtain ⟨m1, hm1⟩ := map_set_total w m k v
      have hstep := insert_step w m m1 k v hwf hsz hg hm1
      have hun : insertAll w m ((k, v) :: kvs) = insertAll w m1 kvs := by
        unfold insertAll
        rw [List.foldl_cons]
        unfold map_setTotal
        rw [hm1]
        rfl
      have hnd' : (kvs.map Prod.fst).Nodup := (List.nodup_cons.mp (by simpa using hnd)).2
      have hknotin : k ∉ kvs.map Prod.fst := (List.nodup_cons.mp (by simpa using hnd)).1
      have hfresh' : ∀ kv ∈ kvs, kv.1 ∉ tableKeys m1 := by
        intro kv hkv hmem
        rcases List.mem_cons.mp (hstep.2.2.2.mem_iff.mp hmem) with hkk | hmem'
        · exact hknotin (hkk ▸ List.mem_map_of_mem Prod.fst hkv)
        · exact hfresh kv (List.mem_cons_of_mem _ hkv) hmem'
      have ih := insertAll_inv w kvs m1 hstep.1 hstep.2.1 hnd' hfresh'
      rw [hun]
      refine ⟨ih.1, ih.2.1, ?_, ?_⟩
      · rw [ih.2.2.1, hstep.2.2.1]
        simp [List.length_cons]
        omega
      · have h1 := ih.2.2.2
        have h2 : (kvs.map Prod.fst ++ tableKeys m1).Perm
            (kvs.map Prod.fst ++ (k :: tableKeys m)) :=
          hstep.2.2.2.append_left _
        have h3 : (kvs.map Prod.fst ++ (k :: tableKeys m)).Perm
            (k :: (kvs.map Prod.fst ++ tableKeys m)) := List.perm_middle
        have := (h1.trans h2).trans h3
        simpa using this

theorem resize_get_eq (w : Nat) (m : map_base_t) (n : Nat)
    (hwf : map_wf w m) (hn : 0 < n) (k : List Nat) :
    map_get_ w ⟨map_resize m.buckets n, m.nnodes⟩ k = map_get_ w m k := by
  have hperm : ((map_resize m.buckets n).flatten).Perm m.buckets.flatten :=
    resize_flatten_perm m.buckets n hn
  have hhash' : ∀ nd ∈ (map_resize m.buckets n).flatten,
      nd.hash = map_hash w nd.key := fun nd hmem =>
    hwf.2.2.1 nd (hperm.mem_iff.mp hmem)
  have hbok' : bucketsOk (map_resize m.buckets n) := resize_bucketsOk m.buckets n hn
  have hnodup' : (tableKeys ⟨map_resize m.buckets n, m.nnodes⟩).Nodup :=
    ((hperm.map MapNode.key).nodup_iff).mpr hwf.2.1
  cases hgv : map_get_ w m k with
  | some v =>
    obtain ⟨nd, hmem, hk, hv⟩ :=
      (get_eq_some_iff w m k v hwf.2.2.1 hwf.2.2.2 hwf.2.1).mp hgv
    exact (get_eq_some_iff w ⟨map_resize m.buckets n, m.nnodes⟩ k v hhash'
      hbok' hnodup').mpr ⟨nd, hperm.mem_iff.mpr hmem, hk, hv⟩
  | none =>
    cases hgv' : map_get_ w ⟨map_resize m.buckets n, m.nnodes⟩ k with
    | none => rfl
    | some v =>
      obtain ⟨nd, hmem, hk, hv⟩ :=
        (get_eq_some_iff w ⟨map_resize m.buckets n, m.nnodes⟩ k v hhash'
          hbok' hnodup').mp hgv'
      have : map_get_ w m k = some v :=
        (get_eq_some_iff w m k v hwf.2.2.1 hwf.2.2.2 hwf.2.1).mpr
          ⟨nd, hperm.mem_iff.mp hmem, hk, hv⟩
      rw [hgv] at this
      cases this

/-
Iteration: the cursor protocol of `map_iter_` / `map_next_` visits exactly
the chained nodes, in bucket order then chain order.
-/

theorem nextbucket_none (bs : List (List MapNode)) (j : Nat)
    (h : map_nextbucket bs j = none) : (bs.drop j).flatten = [] := by
  unfold map_nextbucket at h
  split at h
  case isTrue hj =>
    cases hg : bs.get ⟨j, hj⟩ with
    | nil =>
      rw [hg] at h
      have ih := nextbucket_none bs (j + 1) h
      simp only [List.get_eq_getElem] at hg
      rw [List.drop_eq_getElem_cons hj, List.flatten_cons, hg, ih]
      rfl
    | cons x xs =>
      rw [hg] at h
      cases h
  case isFalse hj =>
    rw [List.drop_eq_nil_of_le (by omega)]
    rfl
termination_by bs.length - j

theorem nextbucket_some (bs : List (List MapNode)) (j j' : Nat)
    (nd : MapNode) (rest : List MapNode)
    (h : map_nextbucket bs j = some (j', nd, rest)) :
    (bs.drop j).flatten = nd :: (rest ++ (bs.drop (j' + 1)).flatten) := by
  unfold map_nextbucket at h
  split at h
  case isTrue hj =>
    cases hg : bs.get ⟨j, hj⟩ with
    | nil =>
      rw [hg] at h
      have ih := nextbucket_some bs (j + 1) j' nd rest h
      simp only [List.get_eq_getElem] at hg
      rw [List.drop_eq_getElem_cons hj, List.flatten_cons, hg, ih]
      rfl
    | cons x xs =>
      rw [hg] at h
      simp only [Option.some.injEq, Prod.mk.injEq] at h
      obtain ⟨rfl, rfl, rfl⟩ := h
      simp only [List.get_eq_getElem] at hg
      rw [List.drop_eq_getElem_cons hj, List.flatten_cons, hg]
      rfl
  case isFalse hj => cases h
termination_by bs.length - j

theorem collect_spec (m : map_base_t) :
    ∀ (fuel : Nat) (iter : map_iter_t),
      (iterRemaining m iter).length ≤ fuel →
      map_collect m iter fuel = (iterRemaining m iter).map MapNode.key
  | 0, iter, hle => by
      have hnil : iterRemaining m iter = [] :=
        List.eq_nil_of_length_eq_zero (Nat.le_zero.mp hle)
      rw [hnil]
      rfl
  | fuel + 1, iter, hle => by
      rcases iter with ⟨b, node⟩
      rcases node with _ | ⟨nd1, _ | ⟨nd2, rest⟩⟩
      · -- node = [] : scan for the next non-empty bucket
        cases hnb : map_nextbucket m.buckets ((b + 1).toNat) with
        | none =>
          have hflat := nextbucket_none m.buckets _ hnb
          unfold map_collect map_next_
          simp only [hnb]
          unfold iterRemaining
          simp only [List.tail_nil, List.nil_append, hflat]
          rfl
        | some t =>
          obtain ⟨j, nd, rest2⟩ := t
          have hflat := nextbucket_some m.buckets _ j nd rest2 hnb
          have htn : (((j : Int)) + 1).toNat = j + 1 := by omega
          have hrem : iterRemaining m ⟨b, []⟩ =
              nd :: (rest2 ++ (m.buckets.drop (j + 1)).flatten) := by
            unfold iterRemaining
            simp only [List.tail_nil, List.nil_append]
            exact hflat
          have hrem' : iterRemaining m ⟨(j : Int), nd :: rest2⟩ =
              rest2 ++ (m.buckets.drop (j + 1)).flatten := by
            unfold iterRemaining
            simp only [List.tail_cons, htn]
          have hle' : (iterRemaining m ⟨(j : Int), nd :: rest2⟩).length ≤ fuel := by
            rw [hrem']
            rw [hrem] at hle
            simp only [List.length_cons] at hle
            omega
          have ih := collect_spec m fuel ⟨(j : Int), nd :: rest2⟩ hle'
          unfold map_collect map_next_
          simp only [hnb]
          rw [ih, hrem, hrem']
          rfl
      · -- node = [nd1] : current chain ends, scan for the next bucket
        cases hnb : map_nextbucket m.buckets ((b + 1).toNat) with
        | none =>
          have hflat := nextbucket_none m.buckets _ hnb
          unfold map_collect map_next_
          simp only [hnb]
          unfold iterRemaining
          simp only [List.tail_cons, List.nil_append, hflat]
          rfl
        | some t =>
          obtain ⟨j, nd, rest2⟩ := t
          have hflat := nextbucket_some m.buckets _ j nd rest2 hnb
          have htn : (((j : Int)) + 1).toNat = j + 1 := by omega
          have hrem : iterRemaining m ⟨b, [nd1]⟩ =
              nd :: (rest2 ++ (m.buckets.drop (j + 1)).flatten) := by
            unfold iterRemaining
            simp only [List.tail_cons, List.nil_append]
            exact hflat
          have hrem' : iterRemaining m ⟨(j : Int), nd :: rest2⟩ =
              rest2 ++ (m.buckets.drop (j + 1)).flatten := by
            unfold iterRemaining
            simp only [List.tail_cons, htn]
          have hle' : (iterRemaining m ⟨(j : Int), nd :: rest2⟩).length ≤ fuel := by
            rw [hrem']
            rw [hrem] at hle
            simp only [List.length_cons] at hle
            omega
          have ih := collect_spec m fuel ⟨(j : Int), nd :: rest2⟩ hle'
          unfold map_collect map_next_
          simp only [hnb]
          rw [ih, hrem, hrem']
          rfl
      · -- node = nd1 :: nd2 :: rest : advance within the chain
        have hrem : iterRemaining m ⟨b, nd1 :: nd2 :: rest⟩ =
            nd2 :: (iterRemaining m ⟨b, nd2 :: rest⟩) := by
          unfold iterRemaining
          simp only [List.tail_cons]
          rfl
        have hle' : (iterRemaining m ⟨b, nd2 :: rest⟩).length ≤ fuel := by
          rw [hrem] at hle
          simp only [List.length_cons] at hle
          omega
        have ih := collect_spec m fuel ⟨b, nd2 :: rest⟩ hle'
        unfold map_collect map_next_
        simp only
        rw [ih, hrem]
        rfl

theorem iterate_all_eq (m : map_base_t) : map_iterate_all m = tableKeys m := by
  have h0 : iterRemaining m map_iter_ = m.buckets.flatten := by
    unfold iterRemaining map_iter_
    simp
  unfold map_iterate_all
  rw [collect_spec m (m.buckets.flatten.length + 1) map_iter_ (by rw [h0]; omega), h0]
  rfl

/-
Removal facts.
-/

theorem remove_present (w : Nat) (m : map_base_t) (k : List Nat) (nd : MapNode)
    (hwf : map_wf w m) (hg : map_getref w m k = some nd) :
    map_get_ w (map_remove_ w m k) k = none ∧
    (map_remove_ w m k).nnodes + 1 = m.nnodes ∧
    ∀ k', k' ≠ k → map_get_ w (map_remove_ w m k) k' = map_get_ w m k' := by
  have hfacts := getref_some w m k nd hg
  have hlen : 0 < m.buckets.length := hfacts.2.2.2
  have hidx : map_bucketidx m.buckets.length (map_hash w k) < m.buckets.length :=
    bucketidx_lt _ _ hlen
  have hrm : map_remove_ w m k =
      ⟨m.buckets.set (map_bucketidx m.buckets.length (map_hash w k))
        (chain_remove (map_hash w k) k
          (m.buckets.getD (map_bucketidx m.buckets.length (map_hash w k)) [])),
        m.nnodes - 1⟩ := by
    unfold map_remove_
    rw [hg]
  have hchain_mem :
      m.buckets.getD (map_bucketidx m.buckets.length (map_hash w k)) [] ∈
        m.buckets := getD_mem _ _ _ hidx
  have hchain_nodup :
      ((m.buckets.getD (map_bucketidx m.buckets.length (map_hash w k)) []).map
        MapNode.key).Nodup :=
    ((List.sublist_flatten_of_mem hchain_mem).map MapNode.key).nodup hwf.2.1
  refine ⟨?_, ?_, ?_⟩
  · rw [hrm]
    unfold map_get_ map_getref
    simp only [List.length_set]
    rw [if_pos hlen, getD_set_self _ _ _ _ hidx,
      chain_get_remove_self _ _ _ hchain_nodup]
    rfl
  · rw [hrm]
    have hpos : 0 < m.buckets.flatten.length := List.length_pos_of_mem hfacts.1
    have hc := hwf.1
    simp only
    omega
  · intro k' hk'
    rw [hrm]
    unfold map_get_ map_getref
    simp only [List.length_set]
    rw [if_pos hlen]
    by_cases hii : map_bucketidx m.buckets.length (map_hash w k') =
        map_bucketidx m.buckets.length (map_hash w k)
    · rw [hii, getD_set_self _ _ _ _ hidx, chain_get_remove_ne _ _ _ _ hk',
        if_pos hlen]
    · rw [getD_set_ne _ _ _ _ _ (fun he => hii he.symm), if_pos hlen]

/-
Claim theorems.
-/

/-- Claim C1 (code bug exhibit): growth failure does NOT leave the table as
it was.  On the failing input (bucket 0 holds the chain node0 → node1,
bucket 1 holds node2), the chains reachable from the buckets before the
drain are exactly [0, 1] and [2]; after the drain that precedes the failed
`realloc` — the state `map_set_` returns 0 in — bucket 0 reaches [0, 2]
and bucket 1 reaches [2], so entry 1 is no longer reachable from any bucket
and entry 2 sits in two chains.  The spec's required clean cancellation
does not hold of the code. -/
theorem claim_C1_resize_failure_corrupts :
    chain_ids failHeap0 (failBuckets0.getD 0 none) 8 = [0, 1] ∧
    chain_ids failHeap0 (failBuckets0.getD 1 none) 8 = [2] ∧
    chain_ids failHeap1 (failBuckets0.getD 0 none) 8 = [0, 2] ∧
    chain_ids failHeap1 (failBuckets0.getD 1 none) 8 = [2] := by
  decide

/-- Claim C2: round-trip — after any successful `map_set_` (either the
overwrite path or the fresh-insert path, with or without growth), a
`map_get_` of the same key returns exactly the value bytes passed in. -/
theorem claim_C2_roundtrip (w : Nat) (a b : Bool) (m m' : map_base_t)
    (k v : List Nat) (h : map_set_ w a b m k v = some m') :
    map_get_ w m' k = some v :=
  get_after_set w a b m m' k v h

/-- Claim C3: overwrite — a second `map_set_` of a key set before updates
the stored value in place: the following `map_get_` returns the new value,
and the entry count is unchanged by the second call. -/
theorem claim_C3_overwrite (w : Nat) (a1 b1 a2 b2 : Bool) (m m1 m2 : map_base_t)
    (k v1 v2 : List Nat) (h1 : map_set_ w a1 b1 m k v1 = some m1)
    (h2 : map_set_ w a2 b2 m1 k v2 = some m2) :
    map_get_ w m2 k = some v2 ∧ m2.nnodes = m1.nnodes := by
  refine ⟨get_after_set w a2 b2 m1 m2 k v2 h2, ?_⟩
  have hg1 : map_getref w m1 k = some (map_newnode w k v1) :=
    getref_after_set w a1 b1 m m1 k v1 h1
  rw [map_set_of_found w a2 b2 m1 k v2 _ hg1] at h2
  obtain rfl := (Option.some.inj h2).symm
  rfl

/-- Claim C4: remove — on a well-formed table, removing a present key
unlinks exactly that entry (the key then reads as empty, every other key
reads as before) and decrements the entry count by exactly one; removing an
absent key leaves the table identical (a no-op, not an error). -/
theorem claim_C4_remove (w : Nat) (m : map_base_t) (k : List Nat)
    (hwf : map_wf w m) :
    ((map_getref w m k).isSome = true →
      map_get_ w (map_remove_ w m k) k = none ∧
      (map_remove_ w m k).nnodes + 1 = m.nnodes ∧
      ∀ k', k' ≠ k → map_get_ w (map_remove_ w m k) k' = map_get_ w m k') ∧
    (map_getref w m k = none → map_remove_ w m k = m) := by
  constructor
  · intro hsome
    obtain ⟨nd, hg⟩ := Option.isSome_iff_exists.mp hsome
    exact remove_present w m k nd hwf hg
  · intro hnone
    unfold map_remove_
    rw [hnone]

/-- Claim C5: growth invariant — inserting any list of distinct keys into a
fresh table (all allocations succeeding) leaves the bucket count 0 or a
power of two, the entry count equal to the number of keys and bounded by
the bucket count, and the bucket count at least the number of keys (and
below twice it, pinning the doubling sequence 0, 1, 2, 4, ...). -/
theorem claim_C5_growth (w : Nat) (kvs : List (List Nat × List Nat))
    (hnd : (kvs.map Prod.fst).Nodup) :
    pow2OrZero (insertAll w map_create kvs).buckets.length ∧
    (insertAll w map_create kvs).nnodes = kvs.length ∧
    (insertAll w map_create kvs).nnodes ≤
      (insertAll w map_create kvs).buckets.length ∧
    (kvs.length = 0 ∧ (insertAll w map_create kvs).buckets.length = 0 ∨
      kvs.length ≤ (insertAll w map_create kvs).buckets.length ∧
      (insertAll w map_create kvs).buckets.length < 2 * kvs.length) := by
  obtain ⟨hwf, hsz, hnn, -⟩ := insertAll_inv w kvs map_create (map_wf_create w)
    sizeInv_create hnd (fun kv _ hmem => by simp [tableKeys, map_create] at hmem)
  have hnn' : (insertAll w map_create kvs).nnodes = kvs.length := by
    rw [hnn]
    show 0 + kvs.length = kvs.length
    omega
  refine ⟨hsz.1, hnn', hsz.2.1, ?_⟩
  have hle := hsz.2.1
  rcases hsz.2.2 with hz | hb
  · left
    omega
  · right
    omega

/-- Claim C6: a successful resize preserves membership — on a well-formed
table, rehashing into any non-empty bucket array (in particular the doubled
one growth requests) leaves every key's lookup result unchanged, and the
re-linked entries are a permutation of the old ones (none dropped, none
duplicated). -/
theorem claim_C6_resize_preserves (w : Nat) (m : map_base_t) (n : Nat)
    (hwf : map_wf w m) (hn : 0 < n) :
    (∀ k, map_get_ w ⟨map_resize m.buckets n, m.nnodes⟩ k = map_get_ w m k) ∧
    ((map_resize m.buckets n).flatten).Perm m.buckets.flatten :=
  ⟨resize_get_eq w m n hwf hn, resize_flatten_perm m.buckets n hn⟩

/-- Claim C7: iteration completeness — a full iteration (fresh iterator
advanced until it yields nothing) returns exactly the keys of the live
entries, in bucket order then chain order; on a well-formed table this list
has no duplicates, so every live key is yielded exactly once. -/
theorem claim_C7_iteration_complete (w : Nat) (m : map_base_t)
    (hwf : map_wf w m) :
    map_iterate_all m = tableKeys m ∧ (map_iterate_all m).Nodup := by
  refine ⟨iterate_all_eq m, ?_⟩
  rw [iterate_all_eq m]
  exact hwf.2.1

/-- Claim C8, counterexample: the spec's claimed equivalence of the code's
update `(hash * 33 + hash) ^ byte` with `((hash << 5) + hash) ^ byte` fails
already on the one-byte key "a" (byte 97) at word width 64: the code
multiplies by 34, the shift form by 33. -/
theorem claim_C8_counterexample :
    ¬ (map_hash 64 [97] = spec_hash_shift 64 [97]) := by
  decide

/-- Claim C8 as amended: the digest is the fold over the key bytes starting
from 5381 with update `(hash * 33 + hash) XOR byte` under width-`w`
wraparound (any native width, 16 bits or more), and that update is
equivalent to `((hash << 5) + 2 * hash) XOR byte` — not to
`((hash << 5) + hash) XOR byte` as the spec writes. -/
theorem claim_C8_hash_fold (w : Nat) (key : List Nat) (hw : 13 ≤ w) :
    map_hash w key = spec_hash_mul w key ∧
    map_hash w key = hash_shift_double w key := by
  have hinit : 5381 % 2 ^ w = 5381 :=
    Nat.mod_eq_of_lt (lt_of_lt_of_le (by decide)
      (Nat.pow_le_pow_right (by decide) hw))
  constructor
  · unfold map_hash spec_hash_mul
    rw [hinit]
  · have hfun : (fun h c => ((h * 33 + h) % 2 ^ w) ^^^ (c % 2 ^ w)) =
        (fun (h c : Nat) => (((h <<< 5) + 2 * h) % 2 ^ w) ^^^ (c % 2 ^ w)) := by
      funext h c
      rw [Nat.shiftLeft_eq]
      have h34 : h * 33 + h = h * 2 ^ 5 + 2 * h := by ring
      rw [h34]
    unfold map_hash hash_shift_double
    rw [hinit, hfun]

/-- Claim C9, counterexample: `map_newnode` places the value directly after
the key's terminator with no padding, so with the LP64 node header (24
bytes: one `size_t` and two pointers) and the key "a" (`ksize` = 2) the
value begins at offset 26, which is not 8-byte aligned — the claimed
alignment padding does not exist in the code. -/
theorem claim_C9_counterexample : ¬ (map_value_offset 24 2 % 8 = 0) := by
  decide

/-- Claim C9 as amended: the value's storage begins exactly `ksize` bytes
after the node header, so whenever the header size is a multiple of the
alignment, the value offset is aligned exactly when `ksize` is — no padding
is inserted after the key's terminator. -/
theorem claim_C9_value_offset (a nodeSize ksize : Nat)
    (hns : nodeSize % a = 0) :
    map_value_offset nodeSize ksize % a = ksize % a := by
  obtain ⟨c, rfl⟩ := Nat.dvd_of_mod_eq_zero hns
  unfold map_value_offset
  rw [Nat.mul_add_mod]

/-- Claim C10: overwriting a present key takes the find-and-replace path
before any allocation or growth check, so it succeeds — with the same
bucket count and entry count — even when both the node allocation and the
bucket-array growth would fail (it can never report OutOfMemory). -/
theorem claim_C10_overwrite_no_alloc (w : Nat) (aN aB : Bool)
    (m : map_base_t) (k v : List Nat) (nd : MapNode)
    (hg : map_getref w m k = some nd) :
    (map_set_ w aN aB m k v).map map_base_t.nnodes = some m.nnodes ∧
    (map_set_ w aN aB m k v).map bucketsLen = some (bucketsLen m) := by
  rw [map_set_of_found w aN aB m k v nd hg]
  refine ⟨rfl, ?_⟩
  simp [bucketsLen, List.length_set]

/-
Witnesses: each claim theorem with a hypothesis, applied at a concrete
input ("a" = byte 97, "b" = 98, "c" = 99).
-/

/-- Witness for C2 at a concrete insert into the empty table. -/
theorem claim_C2_roundtrip_witness :
    map_set_ 64 true true map_create [97] [1] =
      some ⟨[[⟨182987, [97], [1]⟩]], 1⟩ ∧
    map_get_ 64 ⟨[[⟨182987, [97], [1]⟩]], 1⟩ [97] = some [1] :=
  ⟨by decide, claim_C2_roundtrip 64 true true map_create
    ⟨[[⟨182987, [97], [1]⟩]], 1⟩ [97] [1] (by decide)⟩

/-- Witness for C3 at a concrete insert-then-overwrite. -/
theorem claim_C3_overwrite_witness :
    map_set_ 64 true true map_create [97] [1] =
      some ⟨[[⟨182987, [97], [1]⟩]], 1⟩ ∧
    map_set_ 64 true true (⟨[[⟨182987, [97], [1]⟩]], 1⟩ : map_base_t) [97] [2] =
      some ⟨[[⟨182987, [97], [2]⟩]], 1⟩ ∧
    (map_get_ 64 (⟨[[⟨182987, [97], [2]⟩]], 1⟩ : map_base_t) [97] = some [2] ∧
      (⟨[[⟨182987, [97], [2]⟩]], 1⟩ : map_base_t).nnodes =
        (⟨[[⟨182987, [97], [1]⟩]], 1⟩ : map_base_t).nnodes) :=
  ⟨by decide, by decide, claim_C3_overwrite 64 true true true true map_create
    ⟨[[⟨182987, [97], [1]⟩]], 1⟩ ⟨[[⟨182987, [97], [2]⟩]], 1⟩ [97] [1] [2]
    (by decide) (by decide)⟩

/-- Witness for C4 on a two-entry table: removing "a" empties its lookup,
drops the count from 2 to 1, leaves "b" unchanged; removing the absent key
100 is an identity. -/
theorem claim_C4_remove_witness :
    map_wf 64 (insertAll 64 map_create [([97], [1]), ([98], [2])]) ∧
    (map_getref 64 (insertAll 64 map_create [([97], [1]), ([98], [2])])
      [97]).isSome = true ∧
    map_get_ 64 (map_remove_ 64
      (insertAll 64 map_create [([97], [1]), ([98], [2])]) [97]) [97] = none ∧
    (map_remove_ 64
      (insertAll 64 map_create [([97], [1]), ([98], [2])]) [97]).nnodes + 1 =
      (insertAll 64 map_create [([97], [1]), ([98], [2])]).nnodes ∧
    map_get_ 64 (map_remove_ 64
      (insertAll 64 map_create [([97], [1]), ([98], [2])]) [97]) [98] =
      map_get_ 64 (insertAll 64 map_create [([97], [1]), ([98], [2])]) [98] ∧
    map_remove_ 64 (insertAll 64 map_create [([97], [1]), ([98], [2])]) [100] =
      insertAll 64 map_create [([97], [1]), ([98], [2])] := by
  refine ⟨by decide, by decide, ?_, ?_, ?_, ?_⟩
  · exact ((claim_C4_remove 64 _ [97] (by decide)).1 (by decide)).1
  · exact ((claim_C4_remove 64 _ [97] (by decide)).1 (by decide)).2.1
  · exact ((claim_C4_remove 64 _ [97] (by decide)).1 (by decide)).2.2 [98]
      (by decide)
  · exact (claim_C4_remove 64 _ [100] (by decide)).2 (by decide)

/-- Witness for C5 on three distinct inserts: the entry count is 3 and the
bucket count is the power of two 4, matching the growth sequence
0 → 1 → 2 → 4. -/
theorem claim_C5_growth_witness :
    (([([97], [1]), ([98], [2]), ([99], [3])] :
      List (List Nat × List Nat)).map Prod.fst).Nodup ∧
    (pow2OrZero (insertAll 64 map_create
        [([97], [1]), ([98], [2]), ([99], [3])]).buckets.length ∧
      (insertAll 64 map_create
        [([97], [1]), ([98], [2]), ([99], [3])]).nnodes = 3 ∧
      (insertAll 64 map_create
        [([97], [1]), ([98], [2]), ([99], [3])]).nnodes ≤
        (insertAll 64 map_create
          [([97], [1]), ([98], [2]), ([99], [3])]).buckets.length ∧
      (3 = 0 ∧ (insertAll 64 map_create
          [([97], [1]), ([98], [2]), ([99], [3])]).buckets.length = 0 ∨
        3 ≤ (insertAll 64 map_create
          [([97], [1]), ([98], [2]), ([99], [3])]).buckets.length ∧
        (insertAll 64 map_create
          [([97], [1]), ([98], [2]), ([99], [3])]).buckets.length < 2 * 3)) :=
  ⟨by decide, claim_C5_growth 64 [([97], [1]), ([98], [2]), ([99], [3])]
    (by decide)⟩

/-- Witness for C6 on a well-formed two-entry table rehashed into 4
buckets: lookup of "a" is unchanged and the entries are a permutation. -/
theorem claim_C6_resize_preserves_witness :
    map_wf 64 (insertAll 64 map_create [([97], [1]), ([98], [2])]) ∧
    (0 : Nat) < 4 ∧
    map_get_ 64 ⟨map_resize
        (insertAll 64 map_create [([97], [1]), ([98], [2])]).buckets 4,
        (insertAll 64 map_create [([97], [1]), ([98], [2])]).nnodes⟩ [97] =
      map_get_ 64 (insertAll 64 map_create [([97], [1]), ([98], [2])]) [97] ∧
    ((map_resize
        (insertAll 64 map_create [([97], [1]), ([98], [2])]).buckets
        4).flatten).Perm
      (insertAll 64 map_create [([97], [1]), ([98], [2])]).buckets.flatten := by
  refine ⟨by decide, by decide, ?_, ?_⟩
  · exact (claim_C6_resize_preserves 64 _ 4 (by decide) (by decide)).1 [97]
  · exact (claim_C6_resize_preserves 64 _ 4 (by decide) (by decide)).2

/-- Witness for C7 on a well-formed three-entry table: the full iteration
yields exactly the table's keys, without duplicates. -/
theorem claim_C7_iteration_complete_witness :
    map_wf 64 (insertAll 64 map_create
      [([97], [1]), ([98], [2]), ([99], [3])]) ∧
    (map_iterate_all (insertAll 64 map_create
        [([97], [1]), ([98], [2]), ([99], [3])]) =
      tableKeys (insertAll 64 map_create
        [([97], [1]), ([98], [2]), ([99], [3])]) ∧
      (map_iterate_all (insertAll 64 map_create
        [([97], [1]), ([98], [2]), ([99], [3])])).Nodup) :=
  ⟨by decide, claim_C7_iteration_complete 64 _ (by decide)⟩

/-- Witness for the amended C8 at width 64 on the key "ab". -/
theorem claim_C8_hash_fold_witness :
    13 ≤ 64 ∧ (map_hash 64 [97, 98] = spec_hash_mul 64 [97, 98] ∧
      map_hash 64 [97, 98] = hash_shift_double 64 [97, 98]) :=
  ⟨by decide, claim_C8_hash_fold 64 [97, 98] (by decide)⟩

/-- Witness for the amended C9 with the LP64 header size 24, alignment 8
and `ksize` 2: the value offset 26 is 2 modulo 8. -/
theorem claim_C9_value_offset_witness :
    24 % 8 = 0 ∧ map_value_offset 24 2 % 8 = 2 % 8 :=
  ⟨by decide, claim_C9_value_offset 8 24 2 (by decide)⟩

/-- Witness for C10: overwriting the present key "a" with both allocation
outcomes forced to fail still succeeds and keeps both counts. -/
theorem claim_C10_overwrite_no_alloc_witness :
    map_getref 64 (insertAll 64 map_create [([97], [1]), ([98], [2])]) [97] =
      some ⟨182987, [97], [1]⟩ ∧
    ((map_set_ 64 false false
        (insertAll 64 map_create [([97], [1]), ([98], [2])]) [97] [9]).map
      map_base_t.nnodes =
      some (insertAll 64 map_create [([97], [1]), ([98], [2])]).nnodes ∧
     (map_set_ 64 false false
        (insertAll 64 map_create [([97], [1]), ([98], [2])]) [97] [9]).map
      bucketsLen =
      some (bucketsLen (insertAll 64 map_create [([97], [1]), ([98], [2])]))) :=
  ⟨by decide, claim_C10_overwrite_no_alloc 64 false false
    (insertAll 64 map_create [([97], [1]), ([98], [2])]) [97] [9]
    ⟨182987, [97], [1]⟩ (by decide)⟩
